/-
Verification of the font matching, caching, and Unicode-range fallback
resolution engine of cosmic-text (src/font/system.rs), as a shallow
embedding in Lean 4.

Modelling conventions:
* `fontdb::ID` is modelled as `Nat`; `u16`/`u32` values as `Nat` (all the
  operations used here — comparison, absolute difference, membership — never
  overflow, so no modular wrap is involved).
* Rust `HashMap` entries are modelled as association lists in first-insertion
  order; `entry(..).or_insert_with(..)` becomes lookup-or-append.
* A Rust panic (string slicing off a character boundary) is modelled by an
  `Option` result: `none` means the call panicked.
* External collaborators that live outside src/font/system.rs
  (`Font::new`, `Attrs::matches`, `attrs_list.get_span`,
  `UnicodeRangeFallbacks::find_for_char_with_style`, `shape_fallback`) are
  modelled as function parameters, following the spec, which describes them
  as pure given their inputs.
-/
import Mathlib

set_option linter.unusedVariables false

abbrev FontId := Nat

/-- Model of a loaded font: all the engine reads from it is its sorted
codepoint list (`font.unicode_codepoints()`). -/
structure Font where
  codepoints : List Nat
deriving DecidableEq, Repr

/-- Model of a `fontdb::FaceInfo` as used by `get_font_matches`:
an id and a numeric weight (family/style/stretch acceptability is folded
into the externally-defined `matches` predicate parameter). -/
structure FaceInfo where
  id : Nat
  weight : Nat
deriving DecidableEq, Repr

/-- Model of `FontMatchKey` from src/font/system.rs lines 17-22.
Field order matters: the derived Rust `Ord` is lexicographic in
declaration order (weight diff, then weight, then id). -/
structure FontMatchKey where
  font_weight_diff : Nat
  font_weight : Nat
  id : Nat
deriving DecidableEq, Repr

/-- Lexicographic order on `FontMatchKey`, the order `#[derive(PartialOrd, Ord)]`
produces in Rust: ascending weight diff, then ascending weight, then ascending id. -/
def FontMatchKey.le (a b : FontMatchKey) : Prop :=
  a.font_weight_diff < b.font_weight_diff ∨
    (a.font_weight_diff = b.font_weight_diff ∧
      (a.font_weight < b.font_weight ∨
        (a.font_weight = b.font_weight ∧ a.id ≤ b.id)))

instance : DecidableRel FontMatchKey.le := by
  unfold FontMatchKey.le; infer_instance

instance : IsTotal FontMatchKey FontMatchKey.le := by
  constructor; intro a b; unfold FontMatchKey.le; omega

instance : IsTrans FontMatchKey FontMatchKey.le := by
  constructor; intro a b c; unfold FontMatchKey.le; omega

/-- Model of `u16::abs_diff`. -/
def absDiff (a b : Nat) : Nat := if a ≤ b then b - a else a - b

/-- Model of the normalized attribute cache key `FontMatchAttrs`:
the weight, plus an opaque key standing for family/style/stretch. -/
structure MatchAttrs where
  weight : Nat
  famKey : Nat
deriving DecidableEq, Repr

/-- Association list lookup, modelling `HashMap::get`. -/
def lookupAssoc {α β : Type} [DecidableEq α] : List (α × β) → α → Option β
  | [], _ => none
  | (k, v) :: rest, a => if k = a then some v else lookupAssoc rest a

/-- Association list update-or-append, modelling `HashMap::insert` /
`entry(..).or_insert_with(..)` on a miss. -/
def insertAssoc {α β : Type} [DecidableEq α] : List (α × β) → α → β → List (α × β)
  | [], a, b => [(a, b)]
  | (k, v) :: rest, a, b => if k = a then (k, b) :: rest else (k, v) :: insertAssoc rest a b

/-- Model of `FontCachedCodepointSupportInfo` (src/font/system.rs lines 24-27):
two sorted capped sequences of codepoints. -/
structure FontCachedCodepointSupportInfo where
  supported : List Nat
  not_supported : List Nat
deriving DecidableEq, Repr

namespace FontCachedCodepointSupportInfo

def SUPPORTED_MAX_SZ : Nat := 512
def NOT_SUPPORTED_MAX_SZ : Nat := 1024

/-- Model of `FontCachedCodepointSupportInfo::new` (the capacity hint has no
observable effect). -/
def new : FontCachedCodepointSupportInfo := ⟨[], []⟩

end FontCachedCodepointSupportInfo

/-- Model of Rust `slice::binary_search` on a sorted slice:
`.inl i` when the element is found at index `i`, `.inr p` with the sorted
insertion position otherwise.  (On sorted input — the only way the code uses
it — binary search and this linear scan agree.) -/
def searchSorted : List Nat → Nat → Sum Nat Nat
  | [], _ => .inr 0
  | x :: rest, c =>
    if c < x then .inr 0
    else if c = x then .inl 0
    else
      match searchSorted rest c with
      | .inl i => .inl (i + 1)
      | .inr p => .inr (p + 1)

namespace FontCachedCodepointSupportInfo

/-- Model of `FontCachedCodepointSupportInfo::unknown_has_codepoint`
(src/font/system.rs lines 40-64): consult the full codepoint list, then
insert at the given position and truncate back to the cap, skipping the
insert only when the insert position equals the cap. -/
def unknown_has_codepoint (info : FontCachedCodepointSupportInfo)
    (font_codepoints : List Nat) (codepoint : Nat)
    (supported_insert_pos not_supported_insert_pos : Nat) :
    Bool × FontCachedCodepointSupportInfo :=
  let ret := font_codepoints.contains codepoint
  if ret then
    if supported_insert_pos ≠ SUPPORTED_MAX_SZ then
      (true, { info with
        supported := (info.supported.insertIdx supported_insert_pos codepoint).take SUPPORTED_MAX_SZ })
    else (true, info)
  else
    if not_supported_insert_pos ≠ NOT_SUPPORTED_MAX_SZ then
      (false, { info with
        not_supported := (info.not_supported.insertIdx not_supported_insert_pos codepoint).take NOT_SUPPORTED_MAX_SZ })
    else (false, info)

/-- Model of `FontCachedCodepointSupportInfo::has_codepoint`
(src/font/system.rs lines 66-80). -/
def has_codepoint (info : FontCachedCodepointSupportInfo)
    (font_codepoints : List Nat) (codepoint : Nat) :
    Bool × FontCachedCodepointSupportInfo :=
  match searchSorted info.supported codepoint with
  | .inl _ => (true, info)
  | .inr supported_insert_pos =>
    match searchSorted info.not_supported codepoint with
    | .inl _ => (false, info)
    | .inr not_supported_insert_pos =>
      info.unknown_has_codepoint font_codepoints codepoint
        supported_insert_pos not_supported_insert_pos

/-- Observation of the control flow of `has_codepoint`: the call consults the
full font codepoint list exactly when both cached sequences miss. -/
def consults_font_codepoints (info : FontCachedCodepointSupportInfo)
    (codepoint : Nat) : Bool :=
  match searchSorted info.supported codepoint with
  | .inl _ => false
  | .inr _ =>
    match searchSorted info.not_supported codepoint with
    | .inl _ => false
    | .inr _ => true

end FontCachedCodepointSupportInfo

/-- Model of the `FontSystem` state: the font database (its face list), the
loaded-font cache, the per-font codepoint support cache, and the font match
cache (src/font/system.rs lines 84-126).  Fields not touched by the verified
operations (locale, shape buffers, fallback chains) are omitted. -/
structure FontSystem where
  db : List FaceInfo
  font_cache : List (Nat × Option Font)
  font_codepoint_support_info_cache : List (Nat × FontCachedCodepointSupportInfo)
  font_matches_cache : List (MatchAttrs × List FontMatchKey)
deriving DecidableEq, Repr

namespace FontSystem

def FONT_MATCHES_CACHE_SIZE_LIMIT : Nat := 256

/-- Model of `FontSystem::get_font` (src/font/system.rs lines 257-277):
`font_cache.entry(id).or_insert_with(load).clone()`.  The underlying load
(`Font::new`, external to this file) is the parameter `load`.  The third
component instruments the call with the number of times `load` ran, which is
a ghost observation of the control flow (the cache-miss branch is the only
one that evaluates `load`). -/
def get_font (load : Nat → Option Font) (fs : FontSystem) (id : Nat) :
    Option Font × FontSystem × Nat :=
  match lookupAssoc fs.font_cache id with
  | some v => (v, fs, 0)
  | none =>
    (load id, { fs with font_cache := insertAssoc fs.font_cache id (load id) }, 1)

/-- Model of `FontSystem::db_mut` (src/font/system.rs lines 246-249) composed
with the mutation the caller performs through the returned mutable handle:
the method body clears `font_matches_cache` (and nothing else), then hands
out `&mut db`, through which the caller replaces the face set by `newDb`. -/
def db_mut (fs : FontSystem) (newDb : List FaceInfo) : FontSystem :=
  { fs with font_matches_cache := [], db := newDb }

/-- Model of the body of the `or_insert_with` closure in
`FontSystem::get_font_matches` (src/font/system.rs lines 328-340): filter the
database by the externally-defined `attrs.matches` predicate (parameter
`matchesFn`), build the keys with `u16::abs_diff`, and sort by the derived
lexicographic order.  Rust `Vec::sort` is a stable sort by `Ord`; insertion
sort is a stable sort by the same total order. -/
def compute_font_matches (matchesFn : MatchAttrs → FaceInfo → Bool)
    (db : List FaceInfo) (attrs : MatchAttrs) : List FontMatchKey :=
  ((db.filter (fun face => matchesFn attrs face)).map (fun face =>
      { font_weight_diff := absDiff attrs.weight face.weight
        font_weight := face.weight
        id := face.id })).insertionSort FontMatchKey.le

/-- Model of `FontSystem::get_font_matches` (src/font/system.rs lines
314-351): clear the cache wholesale once it reaches the size limit, then
serve from the cache or compute and insert. -/
def get_font_matches (matchesFn : MatchAttrs → FaceInfo → Bool)
    (fs : FontSystem) (attrs : MatchAttrs) : List FontMatchKey × FontSystem :=
  let fs' :=
    if FONT_MATCHES_CACHE_SIZE_LIMIT ≤ fs.font_matches_cache.length then
      { fs with font_matches_cache := [] }
    else fs
  match lookupAssoc fs'.font_matches_cache attrs with
  | some v => (v, fs')
  | none =>
    let v := compute_font_matches matchesFn fs'.db attrs
    (v, { fs' with font_matches_cache := insertAssoc fs'.font_matches_cache attrs v })

/-- One step of the `word.chars().filter(..).count()` fold of
`get_font_supported_codepoints_in_word`: query the support cache for the
codepoint of one character (`u32::from(*ch)` is `ch.toNat`), threading the
cache state and counting the supported characters. -/
def countSupportedStep (cs : List Nat)
    (acc : Nat × FontCachedCodepointSupportInfo) (ch : Char) :
    Nat × FontCachedCodepointSupportInfo :=
  let br := acc.2.has_codepoint cs ch.toNat
  (acc.1 + (if br.1 then 1 else 0), br.2)

/-- Model of `FontSystem::get_font_supported_codepoints_in_word`
(src/font/system.rs lines 296-312): load the font through the cache, then
count the characters of the word whose codepoint the cached support info
reports, threading the per-font support cache through the fold exactly as
the Rust `filter(..).count()` threads `&mut cache` (the
`entry(id).or_insert_with(new)` becomes lookup-or-default before the fold
and a write-back after it). -/
def get_font_supported_codepoints_in_word (load : Nat → Option Font)
    (fs : FontSystem) (id : Nat) (word : List Char) : Option Nat × FontSystem :=
  match get_font load fs id with
  | (none, fs1, _) => (none, fs1)
  | (some font, fs1, _) =>
    let info0 := (lookupAssoc fs1.font_codepoint_support_info_cache id).getD
      FontCachedCodepointSupportInfo.new
    let r := word.foldl (countSupportedStep font.codepoints) (0, info0)
    (some r.1,
      { fs1 with font_codepoint_support_info_cache :=
          insertAssoc fs1.font_codepoint_support_info_cache id r.2 })

end FontSystem

/-! Model of the byte-offset view of Rust strings.  A string is a list of
characters; byte offsets follow the UTF-8 encoding width of each character.
Rust panics when a string is sliced at an index that is not a character
boundary (or out of bounds); the slicing models below return `none` there. -/

/-- UTF-8 encoded width in bytes of one character, as `str` byte offsets
count it. -/
def utf8Len (c : Char) : Nat :=
  if c.toNat < 0x80 then 1
  else if c.toNat < 0x800 then 2
  else if c.toNat < 0x10000 then 3
  else 4

/-- Byte length of a string, as `str::len` counts it. -/
def byteLen (s : List Char) : Nat := (s.map utf8Len).sum

/-- Model of the Rust suffix slice `&s[off..]`: `none` when `off` is out of
bounds or not a character boundary (a Rust panic). -/
def sliceFromChars : List Char → Nat → Option (List Char)
  | s, 0 => some s
  | [], _ + 1 => none
  | c :: rest, off + 1 =>
    if off + 1 < utf8Len c then none
    else sliceFromChars rest (off + 1 - utf8Len c)

/-- Model of taking the first `n` bytes of a string: `none` when `n` is past
the end or not a character boundary (a Rust panic). -/
def takeBytes : List Char → Nat → Option (List Char)
  | _, 0 => some []
  | [], _ + 1 => none
  | c :: rest, n + 1 =>
    if n + 1 < utf8Len c then none
    else (takeBytes rest (n + 1 - utf8Len c)).map (c :: ·)

/-- Model of the Rust slice `&s[a..b]`: `none` on any of the conditions that
make Rust panic (`a > b`, an offset out of bounds, an offset that is not a
character boundary). -/
def sliceStr (s : List Char) (a b : Nat) : Option (List Char) :=
  if b < a then none
  else
    match sliceFromChars s a with
    | none => none
    | some t => takeBytes t (b - a)

/-- Model of `ShapeGlyph` as the fallback pipeline observes it: the byte
offset of the cluster start and an opaque payload distinguishing glyphs. -/
structure ShapeGlyph where
  start : Nat
  payload : Nat
deriving DecidableEq, Repr

/-- Order on glyphs used by `glyphs.sort_by_key(|g| g.start)`. -/
def ShapeGlyph.startLe (a b : ShapeGlyph) : Prop := a.start ≤ b.start

instance : DecidableRel ShapeGlyph.startLe := by
  unfold ShapeGlyph.startLe; infer_instance

instance : IsTotal ShapeGlyph ShapeGlyph.startLe := by
  constructor; intro a b; unfold ShapeGlyph.startLe; omega

instance : IsTrans ShapeGlyph ShapeGlyph.startLe := by
  constructor; intro a b c; unfold ShapeGlyph.startLe; omega

/-- Model of lines 465-479 of src/font/system.rs applied to one missing
offset: the first slice `line[start_run..end_run]` (a possible panic), the
byte-length guard, the second slice at `char_offset` (a possible panic), and
`chars().next()`.  Result: `none` = the call panics; `some none` = the
offset goes to the residual list; `some (some c)` = the character resolved. -/
def resolvePos (line : List Char) (startRun endRun pos : Nat) :
    Option (Option Char) :=
  match sliceStr line startRun endRun with
  | none => none
  | some runStr =>
    let charOffset := pos - startRun
    if byteLen runStr ≤ charOffset then some none
    else
      match sliceFromChars runStr charOffset with
      | none => none
      | some sub => some sub.head?

/-- Model of `font_id_to_positions.entry(font_id).or_default().push(pos)`:
append the position to the bucket of the font id, creating the bucket at the
end on first use (association list in first-insertion order; the Rust
`HashMap` iterates in an unspecified order, and none of the verified
properties depend on the order in which the buckets are processed). -/
def pushGroup : List (Nat × List Nat) → Nat → Nat → List (Nat × List Nat)
  | [], fid, pos => [(fid, [pos])]
  | (f, ps) :: rest, fid, pos =>
    if f = fid then (f, ps ++ [pos]) :: rest
    else (f, ps) :: pushGroup rest fid pos

/-- Model of the grouping loop of `process_unicode_range_fallbacks`
(src/font/system.rs lines 465-499): resolve the character at each missing
offset (possibly panicking), query the fallback table, and either bucket the
offset by fallback font id or push it to `positions_without_fallback`. -/
def classifyMissing (line : List Char) (startRun endRun : Nat)
    (findFb : Char → Option Nat) :
    List Nat → List (Nat × List Nat) → List Nat →
    Option (List (Nat × List Nat) × List Nat)
  | [], groups, wo => some (groups, wo)
  | pos :: rest, groups, wo =>
    match resolvePos line startRun endRun pos with
    | none => none
    | some none => classifyMissing line startRun endRun findFb rest groups (wo ++ [pos])
    | some (some c) =>
      match findFb c with
      | some fid => classifyMissing line startRun endRun findFb rest (pushGroup groups fid pos) wo
      | none => classifyMissing line startRun endRun findFb rest groups (wo ++ [pos])

/-- Model of the replace loop of lines 530-536: replace the first glyph whose
start equals `pos` by `fg`; `none` when no glyph starts at `pos`. -/
def replaceFirstAt : List ShapeGlyph → Nat → ShapeGlyph → Option (List ShapeGlyph)
  | [], _, _ => none
  | g :: rest, pos, fg =>
    if g.start = pos then some (fg :: rest)
    else (replaceFirstAt rest pos fg).map (g :: ·)

/-- Model of lines 528-539: replace the first glyph starting at `pos`, or
push the fallback glyph at the end when none exists. -/
def spliceGlyphAt (glyphs : List ShapeGlyph) (pos : Nat) (fg : ShapeGlyph) :
    List ShapeGlyph :=
  match replaceFirstAt glyphs pos fg with
  | some gl => gl
  | none => glyphs ++ [fg]

/-- Model of the body of the per-position loop of lines 523-547, acting on
the state (current glyph list, residual list): a position present in the
candidate missing set goes to the residual; otherwise the first candidate
glyph starting at the position is spliced in; when no candidate glyph starts
there, nothing happens (the position is dropped). -/
def handlePos (fbMissing : List Nat) (fbGlyphs : List ShapeGlyph)
    (st : List ShapeGlyph × List Nat) (pos : Nat) : List ShapeGlyph × List Nat :=
  if pos ∈ fbMissing then (st.1, st.2 ++ [pos])
  else
    match fbGlyphs.find? (fun g => g.start == pos) with
    | some fg => (spliceGlyphAt st.1 pos fg, st.2)
    | none => st

/-- Model of one iteration of the per-group loop of lines 504-552: on load
failure the whole group goes to the residual; otherwise the run is re-shaped
with the fallback font (parameter `shapeFb`, returning the candidate missing
set and the candidate glyphs) and each position of the group is handled. -/
def processGroup (getF : Nat → Option Font)
    (shapeFb : Nat → List Nat × List ShapeGlyph)
    (st : List ShapeGlyph × List Nat) (grp : Nat × List Nat) :
    List ShapeGlyph × List Nat :=
  match getF grp.1 with
  | none => (st.1, st.2 ++ grp.2)
  | some _ =>
    let fb := shapeFb grp.1
    grp.2.foldl (handlePos fb.1 fb.2) st

/-- Model of `FontSystem::process_unicode_range_fallbacks`
(src/font/system.rs lines 430-559).  `hasFb` models
`has_unicode_range_fallbacks()`; `findFb` models
`get_unicode_range_fallback_for_char_with_style` at the attribute span of
the run (the weight and style arguments are fixed per call); `getF` models
`get_font` restricted to its result value (memoization does not change the
value within one call); `shapeFb` models `shape_fallback` for the fixed run,
returning the candidate missing offsets and candidate glyphs.  The result is
`none` when the Rust code panics (string slicing off a character boundary),
otherwise the final glyph list and the residual missing list. -/
def process_unicode_range_fallbacks (hasFb : Bool) (findFb : Char → Option Nat)
    (getF : Nat → Option Font) (shapeFb : Nat → List Nat × List ShapeGlyph)
    (glyphs : List ShapeGlyph) (line : List Char) (startRun endRun : Nat)
    (missing : List Nat) : Option (List ShapeGlyph × List Nat) :=
  if !hasFb then some (glyphs, missing)
  else
    match classifyMissing line startRun endRun findFb missing [] [] with
    | none => none
    | some (groups, wo) =>
      let st := groups.foldl (processGroup getF shapeFb) (glyphs, wo)
      some (st.1.insertionSort ShapeGlyph.startLe, st.2.insertionSort (· ≤ ·))

/-! Helper lemmas.  None of these is the theorem of a claim. -/

theorem contains_eq_decide_mem (l : List Nat) (c : Nat) :
    l.contains c = decide (c ∈ l) :=
  List.elem_eq_mem c l

theorem lookupAssoc_insertAssoc_self {α β : Type} [DecidableEq α]
    (m : List (α × β)) (a : α) (b : β) :
    lookupAssoc (insertAssoc m a b) a = some b := by
  induction m with
  | nil => simp [insertAssoc, lookupAssoc]
  | cons kv rest ih =>
    obtain ⟨k, v⟩ := kv
    by_cases h : k = a <;> simp [insertAssoc, lookupAssoc, h, ih]

theorem lookupAssoc_insertAssoc_ne {α β : Type} [DecidableEq α]
    (m : List (α × β)) (a a' : α) (b : β) (h : a' ≠ a) :
    lookupAssoc (insertAssoc m a b) a' = lookupAssoc m a' := by
  induction m with
  | nil =>
    have hne : ¬a = a' := fun hc => h hc.symm
    simp [insertAssoc, lookupAssoc, hne]
  | cons kv rest ih =>
    obtain ⟨k, v⟩ := kv
    by_cases hk : k = a
    · subst hk
      have hka' : ¬k = a' := fun hc => h hc.symm
      simp [insertAssoc, lookupAssoc, hka']
    · by_cases hk' : k = a'
      · subst hk'
        simp [insertAssoc, lookupAssoc, hk]
      · simp [insertAssoc, lookupAssoc, hk, hk', ih]

theorem searchSorted_inl_mem {l : List Nat} {c i : Nat}
    (h : searchSorted l c = .inl i) : c ∈ l := by
  induction l generalizing i with
  | nil => simp [searchSorted] at h
  | cons x rest ih =>
    by_cases h1 : c < x
    · simp [searchSorted, h1] at h
    · by_cases h2 : c = x
      · simp [h2]
      · simp only [searchSorted, if_neg h1, if_neg h2] at h
        rcases hr : searchSorted rest c with i' | p' <;> rw [hr] at h
        · exact List.mem_cons_of_mem x (ih hr)
        · simp at h

theorem searchSorted_inl_of_mem {l : List Nat} {c : Nat}
    (hl : l.Sorted (· < ·)) (h : c ∈ l) : ∃ i, searchSorted l c = .inl i := by
  induction l with
  | nil => simp at h
  | cons x rest ih =>
    rcases List.mem_cons.mp h with rfl | hm
    · exact ⟨0, by simp [searchSorted]⟩
    · have hx : x < c := (List.sorted_cons.mp hl).1 c hm
      obtain ⟨i, hi⟩ := ih (List.sorted_cons.mp hl).2 hm
      exact ⟨i + 1, by simp [searchSorted, Nat.lt_asymm hx, Nat.ne_of_gt hx, hi]⟩

theorem searchSorted_inr_not_mem {l : List Nat} {c p : Nat}
    (hl : l.Sorted (· < ·)) (h : searchSorted l c = .inr p) : c ∉ l := by
  intro hm
  obtain ⟨i, hi⟩ := searchSorted_inl_of_mem hl hm
  rw [hi] at h
  exact Sum.noConfusion h

theorem searchSorted_inr_le {l : List Nat} {c p : Nat}
    (h : searchSorted l c = .inr p) : p ≤ l.length := by
  induction l generalizing p with
  | nil => simp [searchSorted] at h; omega
  | cons x rest ih =>
    by_cases h1 : c < x
    · simp [searchSorted, h1] at h; omega
    · by_cases h2 : c = x
      · simp [searchSorted, h1, h2] at h
      · simp only [searchSorted, if_neg h1, if_neg h2] at h
        rcases hr : searchSorted rest c with i' | p' <;> rw [hr] at h
        · simp at h
        · have := ih hr
          simp only [Sum.inr.injEq] at h
          simp [List.length_cons]
          omega

theorem sorted_insertIdx_searchSorted {l : List Nat} {c p : Nat}
    (hl : l.Sorted (· < ·)) (h : searchSorted l c = .inr p) :
    (l.insertIdx p c).Sorted (· < ·) := by
  induction l generalizing p with
  | nil =>
    simp [searchSorted] at h
    subst h
    simp
  | cons x rest ih =>
    by_cases h1 : c < x
    · simp only [searchSorted, if_pos h1] at h
      simp only [Sum.inr.injEq] at h
      subst h
      rw [List.insertIdx_zero, List.sorted_cons]
      refine ⟨fun b hb => ?_, hl⟩
      rcases List.mem_cons.mp hb with rfl | hm
      · exact h1
      · exact Nat.lt_trans h1 ((List.sorted_cons.mp hl).1 b hm)
    · by_cases h2 : c = x
      · simp [searchSorted, h1, h2] at h
      · simp only [searchSorted, if_neg h1, if_neg h2] at h
        rcases hr : searchSorted rest c with i' | p' <;> rw [hr] at h
        · simp at h
        · simp only [Sum.inr.injEq] at h
          subst h
          rw [List.insertIdx_succ_cons, List.sorted_cons]
          refine ⟨fun b hb => ?_, ih (List.sorted_cons.mp hl).2 hr⟩
          rcases (List.mem_insertIdx (searchSorted_inr_le hr)).mp hb with rfl | hm
          · omega
          · exact (List.sorted_cons.mp hl).1 b hm

namespace FontCachedCodepointSupportInfo

/-- Structural invariant of the per-font codepoint support cache: both
sequences sorted strictly ascending (hence duplicate-free), both within
their caps, and no codepoint in both at once. -/
def Inv (info : FontCachedCodepointSupportInfo) : Prop :=
  info.supported.Sorted (· < ·) ∧ info.not_supported.Sorted (· < ·) ∧
    info.supported.length ≤ SUPPORTED_MAX_SZ ∧
    info.not_supported.length ≤ NOT_SUPPORTED_MAX_SZ ∧
    ∀ c ∈ info.supported, c ∉ info.not_supported

instance : DecidablePred Inv := by
  unfold Inv; infer_instance

/-- Consistency of the cached sequences with the full codepoint list of the
font they cache facts about. -/
def Consistent (info : FontCachedCodepointSupportInfo) (cs : List Nat) : Prop :=
  (∀ c ∈ info.supported, c ∈ cs) ∧ ∀ c ∈ info.not_supported, c ∉ cs

instance : ∀ info cs, Decidable (Consistent info cs) := by
  unfold Consistent; infer_instance

end FontCachedCodepointSupportInfo

theorem searchSorted_inr_of_not_mem {l : List Nat} {c : Nat}
    (h : c ∉ l) : ∃ p, searchSorted l c = .inr p := by
  induction l with
  | nil => exact ⟨0, rfl⟩
  | cons x rest ih =>
    have hcx : c ≠ x := fun hc => h (hc ▸ List.mem_cons_self x rest)
    by_cases h1 : c < x
    · exact ⟨0, by simp [searchSorted, h1]⟩
    · obtain ⟨p, hp⟩ := ih (fun hm => h (List.mem_cons_of_mem x hm))
      exact ⟨p + 1, by simp [searchSorted, h1, hcx, hp]⟩

namespace FontCachedCodepointSupportInfo

theorem has_codepoint_fst (info : FontCachedCodepointSupportInfo)
    (cs : List Nat) (c : Nat) (hInv : Inv info) (hCon : Consistent info cs) :
    (info.has_codepoint cs c).1 = cs.contains c := by
  obtain ⟨hsS, hsN, _, _, _⟩ := hInv
  rcases h1 : searchSorted info.supported c with i | sPos
  · have hm : c ∈ cs := hCon.1 c (searchSorted_inl_mem h1)
    simp [has_codepoint, h1, contains_eq_decide_mem, hm]
  · rcases h2 : searchSorted info.not_supported c with j | nPos
    · have hm : c ∉ cs := hCon.2 c (searchSorted_inl_mem h2)
      simp [has_codepoint, h1, h2, contains_eq_decide_mem, hm]
    · simp only [has_codepoint, h1, h2, unknown_has_codepoint]
      cases hc : cs.contains c <;> simp [hc] <;> split <;> simp

theorem has_codepoint_inv (info : FontCachedCodepointSupportInfo)
    (cs : List Nat) (c : Nat) (hInv : Inv info) :
    Inv (info.has_codepoint cs c).2 := by
  obtain ⟨hsS, hsN, hlS, hlN, hdisj⟩ := hInv
  rcases h1 : searchSorted info.supported c with i | sPos
  · simpa [has_codepoint, h1, Inv] using ⟨hsS, hsN, hlS, hlN, hdisj⟩
  · have hcS : c ∉ info.supported := searchSorted_inr_not_mem hsS h1
    rcases h2 : searchSorted info.not_supported c with j | nPos
    · simpa [has_codepoint, h1, h2, Inv] using ⟨hsS, hsN, hlS, hlN, hdisj⟩
    · have hcN : c ∉ info.not_supported := searchSorted_inr_not_mem hsN h2
      simp only [has_codepoint, h1, h2, unknown_has_codepoint]
      cases hc : cs.contains c
      · simp only [Bool.false_eq_true, if_false]
        split
        · refine ⟨hsS, ?_, hlS, ?_, ?_⟩
          · exact ((sorted_insertIdx_searchSorted hsN h2).sublist
              (List.take_sublist _ _) :)
          · exact List.length_take_le _ _
          · intro x hx hx'
            have hx'' := List.mem_of_mem_take hx'
            rcases (List.mem_insertIdx (searchSorted_inr_le h2)).mp hx'' with rfl | hxN
            · exact hcS hx
            · exact hdisj x hx hxN
        · exact ⟨hsS, hsN, hlS, hlN, hdisj⟩
      · simp only [if_true]
        split
        · refine ⟨?_, hsN, ?_, hlN, ?_⟩
          · exact ((sorted_insertIdx_searchSorted hsS h1).sublist
              (List.take_sublist _ _) :)
          · exact List.length_take_le _ _
          · intro x hx
            have hx' := List.mem_of_mem_take hx
            rcases (List.mem_insertIdx (searchSorted_inr_le h1)).mp hx' with rfl | hxS
            · exact hcN
            · exact hdisj x hxS
        · exact ⟨hsS, hsN, hlS, hlN, hdisj⟩

theorem has_codepoint_consistent (info : FontCachedCodepointSupportInfo)
    (cs : List Nat) (c : Nat) (hCon : Consistent info cs) :
    Consistent (info.has_codepoint cs c).2 cs := by
  obtain ⟨hS, hN⟩ := hCon
  rcases h1 : searchSorted info.supported c with i | sPos
  · simpa [has_codepoint, h1, Consistent] using ⟨hS, hN⟩
  · rcases h2 : searchSorted info.not_supported c with j | nPos
    · simpa [has_codepoint, h1, h2, Consistent] using ⟨hS, hN⟩
    · simp only [has_codepoint, h1, h2, unknown_has_codepoint]
      cases hc : cs.contains c
      · have hcm : c ∉ cs := by
          rw [contains_eq_decide_mem] at hc
          simpa using hc
        simp only [Bool.false_eq_true, if_false]
        split
        · refine ⟨hS, ?_⟩
          intro x hx
          have hx' := List.mem_of_mem_take hx
          rcases (List.mem_insertIdx (searchSorted_inr_le h2)).mp hx' with rfl | hxN
          · exact hcm
          · exact hN x hxN
        · exact ⟨hS, hN⟩
      · have hcm : c ∈ cs := by
          rw [contains_eq_decide_mem] at hc
          simpa using hc
        simp only [if_true]
        split
        · refine ⟨?_, hN⟩
          intro x hx
          have hx' := List.mem_of_mem_take hx
          rcases (List.mem_insertIdx (searchSorted_inr_le h1)).mp hx' with rfl | hxS
          · exact hcm
          · exact hS x hxS
        · exact ⟨hS, hN⟩

end FontCachedCodepointSupportInfo

/-- Claim C6: for every face id, `get_font` attempts the underlying load at
most once — a cache hit performs no load; the first call caches the load
result (also a failed load, cached as a permanent `none`); an immediately
following call for the same id returns the same result with no load and no
state change; and a call for a different id leaves the cached entry intact. -/
theorem claim_C6_get_font_memoized (load : Nat → Option Font)
    (fs : FontSystem) (id : Nat) :
    (FontSystem.get_font load fs id).2.2 ≤ 1 ∧
    lookupAssoc (FontSystem.get_font load fs id).2.1.font_cache id
      = some (FontSystem.get_font load fs id).1 ∧
    (FontSystem.get_font load (FontSystem.get_font load fs id).2.1 id).2.2 = 0 ∧
    (FontSystem.get_font load (FontSystem.get_font load fs id).2.1 id).1
      = (FontSystem.get_font load fs id).1 ∧
    (FontSystem.get_font load (FontSystem.get_font load fs id).2.1 id).2.1
      = (FontSystem.get_font load fs id).2.1 ∧
    (lookupAssoc fs.font_cache id = none →
      (FontSystem.get_font load fs id).1 = load id) ∧
    (load id = none → lookupAssoc fs.font_cache id = none →
      (FontSystem.get_font load fs id).1 = none) ∧
    ∀ id', id' ≠ id →
      lookupAssoc (FontSystem.get_font load fs id').2.1.font_cache id
        = lookupAssoc fs.font_cache id := by
  rcases h : lookupAssoc fs.font_cache id with _ | v
  · refine ⟨?_, ?_, ?_, ?_, ?_, ?_, ?_, ?_⟩
    · simp [FontSystem.get_font, h]
    · simp [FontSystem.get_font, h, lookupAssoc_insertAssoc_self]
    · simp [FontSystem.get_font, h, lookupAssoc_insertAssoc_self]
    · simp [FontSystem.get_font, h, lookupAssoc_insertAssoc_self]
    · simp [FontSystem.get_font, h, lookupAssoc_insertAssoc_self]
    · intro _
      simp [FontSystem.get_font, h]
    · intro hn _
      simp [FontSystem.get_font, h, hn]
    · intro id' hne
      rcases h' : lookupAssoc fs.font_cache id' with _ | v'
      · simp [FontSystem.get_font, h',
          lookupAssoc_insertAssoc_ne _ _ _ _ (Ne.symm hne), h]
      · simp [FontSystem.get_font, h', h]
  · refine ⟨?_, ?_, ?_, ?_, ?_, ?_, ?_, ?_⟩
    · simp [FontSystem.get_font, h]
    · simp [FontSystem.get_font, h]
    · simp [FontSystem.get_font, h]
    · simp [FontSystem.get_font, h]
    · simp [FontSystem.get_font, h]
    · intro hn
      exact Option.noConfusion hn
    · intro _ hn
      exact Option.noConfusion hn
    · intro id' hne
      rcases h' : lookupAssoc fs.font_cache id' with _ | v'
      · simp [FontSystem.get_font, h',
          lookupAssoc_insertAssoc_ne _ _ _ _ (Ne.symm hne), h]
      · simp [FontSystem.get_font, h', h]

/-- Witness for C6 at a concrete input: a load that fails gives `none` on a
fresh cache. -/
theorem claim_C6_witness :
    (FontSystem.get_font (fun _ => none) ⟨[], [], [], []⟩ 0).1 = none :=
  (claim_C6_get_font_memoized (fun _ => none) ⟨[], [], [], []⟩ 0).2.2.2.2.2.2.1
    rfl rfl

/-- Claim C3 (amended): `db_mut` clears the font match cache — so a
subsequent `get_font_matches` recomputes against the current face set — but
leaves the codepoint support cache (and the loaded-font cache) unchanged. -/
theorem claim_C3_db_mut_clears_match_cache_only (fs : FontSystem)
    (newDb : List FaceInfo) :
    (fs.db_mut newDb).font_matches_cache = [] ∧
    (fs.db_mut newDb).font_codepoint_support_info_cache
      = fs.font_codepoint_support_info_cache ∧
    ∀ matchesFn attrs,
      (FontSystem.get_font_matches matchesFn (fs.db_mut newDb) attrs).1
        = FontSystem.compute_font_matches matchesFn newDb attrs := by
  refine ⟨rfl, rfl, fun matchesFn attrs => ?_⟩
  simp [FontSystem.get_font_matches, FontSystem.db_mut, lookupAssoc,
    FontSystem.FONT_MATCHES_CACHE_SIZE_LIMIT]

/-- Counterexample to C3 as stated: an explicit database mutation does not
clear the codepoint support cache — after `db_mut` on a state whose
codepoint support cache holds an entry, that cache still holds it. -/
theorem claim_C3_counterexample :
    (FontSystem.db_mut (⟨[], [], [(0, ⟨[5], []⟩)], []⟩ : FontSystem)
        []).font_codepoint_support_info_cache
      = [(0, (⟨[5], []⟩ : FontCachedCodepointSupportInfo))] ∧
    ([(0, (⟨[5], []⟩ : FontCachedCodepointSupportInfo))] : List _) ≠ [] := by
  exact ⟨rfl, by simp⟩

/-- Claim C5: `get_font_matches` returns the match keys sorted by the total
order ascending (weight diff, face weight, face id), provided every cached
list was itself sorted; the computed key list is, up to that order, exactly
the keys of the faces accepted by the match predicate; and on faces of
weights 100, 400, 700 with request weight 450 the result is weight 400
first (diff 50), then 700 (diff 250), then 100 (diff 350). -/
theorem claim_C5_match_order :
    (∀ (matchesFn : MatchAttrs → FaceInfo → Bool) (fs : FontSystem)
        (attrs : MatchAttrs),
      (∀ a v, lookupAssoc fs.font_matches_cache a = some v →
        v.Sorted FontMatchKey.le) →
      ((FontSystem.get_font_matches matchesFn fs attrs).1).Sorted
        FontMatchKey.le) ∧
    (∀ (matchesFn : MatchAttrs → FaceInfo → Bool) (db : List FaceInfo)
        (attrs : MatchAttrs),
      (FontSystem.compute_font_matches matchesFn db attrs).Perm
        ((db.filter (fun face => matchesFn attrs face)).map (fun face =>
          { font_weight_diff := absDiff attrs.weight face.weight
            font_weight := face.weight
            id := face.id }))) ∧
    (FontSystem.get_font_matches (fun _ _ => true)
        ⟨[⟨1, 100⟩, ⟨2, 400⟩, ⟨3, 700⟩], [], [], []⟩ ⟨450, 0⟩).1
      = [⟨50, 400, 2⟩, ⟨250, 700, 3⟩, ⟨350, 100, 1⟩] := by
  refine ⟨fun matchesFn fs attrs hc => ?_, fun matchesFn db attrs => ?_, ?_⟩
  · unfold FontSystem.get_font_matches
    split
    · rcases h : lookupAssoc
          (({ fs with font_matches_cache := [] } : FontSystem)).font_matches_cache
          attrs with _ | v
      · simpa [h] using
          List.sorted_insertionSort FontMatchKey.le _
      · simp [lookupAssoc] at h
    · rcases h : lookupAssoc fs.font_matches_cache attrs with _ | v
      · simpa [h] using
          List.sorted_insertionSort FontMatchKey.le _
      · simpa [h] using hc attrs v h
  · exact List.perm_insertionSort FontMatchKey.le _
  · decide

/-- Witness for C5 at a concrete input: on an empty cache the hypothesis on
cached lists holds vacuously. -/
theorem claim_C5_witness :
    ((FontSystem.get_font_matches (fun _ _ => true)
        ⟨[], [], [], []⟩ ⟨450, 0⟩).1).Sorted FontMatchKey.le :=
  claim_C5_match_order.1 (fun _ _ => true) ⟨[], [], [], []⟩ ⟨450, 0⟩
    (by intro a v h; simp [lookupAssoc] at h)

/-- States of the per-font support cache reachable from the fresh cache
through `has_codepoint` queries (with arbitrary font codepoint lists). -/
inductive ReachableInfo : FontCachedCodepointSupportInfo → Prop
  | base : ReachableInfo FontCachedCodepointSupportInfo.new
  | step {i : FontCachedCodepointSupportInfo} (cs : List Nat) (c : Nat) :
      ReachableInfo i → ReachableInfo (i.has_codepoint cs c).2

/-- Claim C8: every cache state reachable from the empty state through
`has_codepoint` queries satisfies the structural invariant — both sequences
sorted strictly ascending, lengths within the caps 512 and 1024, and no
codepoint in both sequences — and every `has_codepoint` call preserves the
invariant. -/
theorem claim_C8_support_cache_invariant :
    (∀ i, ReachableInfo i → FontCachedCodepointSupportInfo.Inv i) ∧
    ∀ (i : FontCachedCodepointSupportInfo) (cs : List Nat) (c : Nat),
      FontCachedCodepointSupportInfo.Inv i →
      FontCachedCodepointSupportInfo.Inv (i.has_codepoint cs c).2 := by
  refine ⟨fun i hr => ?_, fun i cs c h =>
    FontCachedCodepointSupportInfo.has_codepoint_inv i cs c h⟩
  induction hr with
  | base => decide
  | step cs c hr ih =>
    exact FontCachedCodepointSupportInfo.has_codepoint_inv _ cs c ih

/-- Witness for C8 at a concrete input: the invariant after one query on the
fresh cache. -/
theorem claim_C8_witness :
    FontCachedCodepointSupportInfo.Inv
      ((FontCachedCodepointSupportInfo.new).has_codepoint [5] 5).2 :=
  claim_C8_support_cache_invariant.2 FontCachedCodepointSupportInfo.new [5] 5
    (by decide)

/-- Claim C7: under the cache invariant and consistency with the codepoint
list of the font, `has_codepoint` returns true exactly when the codepoint is
in the codepoint list of the font; and once the queried codepoint has been
recorded in either cached sequence, an immediately repeated query returns
the identical result with the state unchanged and without consulting the
full codepoint list of the font. -/
theorem claim_C7_has_codepoint_correct_and_stable
    (info : FontCachedCodepointSupportInfo) (cs : List Nat) (c : Nat)
    (hInv : FontCachedCodepointSupportInfo.Inv info)
    (hCon : FontCachedCodepointSupportInfo.Consistent info cs) :
    (info.has_codepoint cs c).1 = cs.contains c ∧
    ((c ∈ (info.has_codepoint cs c).2.supported ∨
        c ∈ (info.has_codepoint cs c).2.not_supported) →
      (info.has_codepoint cs c).2.has_codepoint cs c = info.has_codepoint cs c ∧
      FontCachedCodepointSupportInfo.consults_font_codepoints
        (info.has_codepoint cs c).2 c = false) := by
  have h1 := FontCachedCodepointSupportInfo.has_codepoint_fst info cs c hInv hCon
  have hInv' := FontCachedCodepointSupportInfo.has_codepoint_inv info cs c hInv
  have hCon' := FontCachedCodepointSupportInfo.has_codepoint_consistent info cs c hCon
  refine ⟨h1, ?_⟩
  rcases hE : info.has_codepoint cs c with ⟨b, i'⟩
  rw [hE] at h1 hInv' hCon'
  dsimp only at h1 hInv' hCon' ⊢
  intro hrec
  rcases hrec with hm | hm
  · obtain ⟨i, hi⟩ := searchSorted_inl_of_mem hInv'.1 hm
    have hb : b = true := by
      rw [h1, contains_eq_decide_mem]
      simpa using hCon'.1 c hm
    subst hb
    refine ⟨?_, ?_⟩
    · simp [FontCachedCodepointSupportInfo.has_codepoint, hi]
    · simp [FontCachedCodepointSupportInfo.consults_font_codepoints, hi]
  · have hns : c ∉ i'.supported := fun hs => hInv'.2.2.2.2 c hs hm
    obtain ⟨p, hp⟩ := searchSorted_inr_of_not_mem hns
    obtain ⟨j, hj⟩ := searchSorted_inl_of_mem hInv'.2.1 hm
    have hb : b = false := by
      rw [h1, contains_eq_decide_mem]
      simpa using hCon'.2 c hm
    subst hb
    refine ⟨?_, ?_⟩
    · simp [FontCachedCodepointSupportInfo.has_codepoint, hp, hj]
    · simp [FontCachedCodepointSupportInfo.consults_font_codepoints, hp, hj]

/-- Witness for C7 at a concrete input: a fresh cache and a font supporting
codepoint 7. -/
theorem claim_C7_witness :
    (FontCachedCodepointSupportInfo.has_codepoint ⟨[], []⟩ [7] 7).1
      = List.contains [7] 7 :=
  (claim_C7_has_codepoint_correct_and_stable ⟨[], []⟩ [7] 7
    (by decide) (by decide)).1

theorem searchSorted_inr_eq_length_iff {l : List Nat} {c p : Nat}
    (hl : l.Sorted (· < ·)) (hc : c ∉ l) (hp : searchSorted l c = .inr p) :
    p = l.length ↔ ∀ x ∈ l, x < c := by
  induction l generalizing p with
  | nil =>
    simp [searchSorted] at hp
    simp [hp.symm]
  | cons x rest ih =>
    have hcx : c ≠ x := fun h => hc (h ▸ List.mem_cons_self x rest)
    by_cases h1 : c < x
    · simp only [searchSorted, if_pos h1, Sum.inr.injEq] at hp
      subst hp
      constructor
      · intro h
        simp at h
      · intro h
        exact absurd (h x (List.mem_cons_self x rest)) (by omega)
    · simp only [searchSorted, if_neg h1, if_neg hcx] at hp
      rcases hr : searchSorted rest c with i | q <;> rw [hr] at hp
      · exact absurd hp (by simp)
      · simp only [Sum.inr.injEq] at hp
        subst hp
        have hxc : x < c := by omega
        have ihq := ih (List.sorted_cons.mp hl).2
          (fun hm => hc (List.mem_cons_of_mem x hm)) hr
        simp only [List.length_cons, List.mem_cons]
        constructor
        · intro h y hy
          rcases hy with rfl | hy
          · exact hxc
          · exact (ihq.mp (by omega)) y hy
        · intro h
          have := ihq.mpr (fun y hy => h y (Or.inr hy))
          omega

set_option maxRecDepth 60000 in
/-- Counterexample to C4 as stated: with the supported sequence at its cap
512 (holding 1..512) and a font supporting the unknown codepoint 0, the
query inserts 0 at its sorted position and truncates, evicting 512 — the
cached sequence does not stay unchanged. -/
theorem claim_C4_counterexample :
    ((List.range 512).map (· + 1)).length = 512 ∧
    (0 : Nat) ∉ (List.range 512).map (· + 1) ∧
    (FontCachedCodepointSupportInfo.has_codepoint
        ⟨(List.range 512).map (· + 1), []⟩ [0] 0).2.supported
      ≠ (List.range 512).map (· + 1) ∧
    (0 : Nat) ∈ (FontCachedCodepointSupportInfo.has_codepoint
        ⟨(List.range 512).map (· + 1), []⟩ [0] 0).2.supported ∧
    (512 : Nat) ∈ (List.range 512).map (· + 1) ∧
    (512 : Nat) ∉ (FontCachedCodepointSupportInfo.has_codepoint
        ⟨(List.range 512).map (· + 1), []⟩ [0] 0).2.supported := by
  refine ⟨by decide, by decide, by decide, by decide, by decide, by decide⟩

/-- Claim C4 (amended): when a cached sequence is at its cap and the queried
codepoint is in neither sequence, the query still consults the full
codepoint list of the font (the result equals membership there); the
opposite sequence is unchanged; and the full sequence stays entirely
unchanged exactly when the new codepoint would sort to the very end —
otherwise the codepoint is inserted at its sorted position and the sequence
is truncated back to the cap, evicting its largest entry. -/
theorem claim_C4_at_capacity_behavior
    (info : FontCachedCodepointSupportInfo) (cs : List Nat) (c : Nat)
    (hsS : info.supported.Sorted (· < ·))
    (hsN : info.not_supported.Sorted (· < ·))
    (hlS : info.supported.length = FontCachedCodepointSupportInfo.SUPPORTED_MAX_SZ)
    (hlN : info.not_supported.length = FontCachedCodepointSupportInfo.NOT_SUPPORTED_MAX_SZ)
    (hcS : c ∉ info.supported) (hcN : c ∉ info.not_supported) :
    ((info.has_codepoint cs c).1 = cs.contains c) ∧
    (c ∈ cs →
      (info.has_codepoint cs c).2.not_supported = info.not_supported ∧
      ((∀ x ∈ info.supported, x < c) → (info.has_codepoint cs c).2 = info) ∧
      (¬(∀ x ∈ info.supported, x < c) →
        c ∈ (info.has_codepoint cs c).2.supported ∧
        (info.has_codepoint cs c).2.supported.length
          = FontCachedCodepointSupportInfo.SUPPORTED_MAX_SZ)) ∧
    (c ∉ cs →
      (info.has_codepoint cs c).2.supported = info.supported ∧
      ((∀ x ∈ info.not_supported, x < c) → (info.has_codepoint cs c).2 = info) ∧
      (¬(∀ x ∈ info.not_supported, x < c) →
        c ∈ (info.has_codepoint cs c).2.not_supported ∧
        (info.has_codepoint cs c).2.not_supported.length
          = FontCachedCodepointSupportInfo.NOT_SUPPORTED_MAX_SZ)) := by
  obtain ⟨sPos, hsp⟩ := searchSorted_inr_of_not_mem hcS
  obtain ⟨nPos, hnp⟩ := searchSorted_inr_of_not_mem hcN
  have hsple := searchSorted_inr_le hsp
  have hnple := searchSorted_inr_le hnp
  have hsIff := searchSorted_inr_eq_length_iff hsS hcS hsp
  have hnIff := searchSorted_inr_eq_length_iff hsN hcN hnp
  refine ⟨?_, fun hmem => ?_, fun hmem => ?_⟩
  · simp only [FontCachedCodepointSupportInfo.has_codepoint, hsp, hnp,
      FontCachedCodepointSupportInfo.unknown_has_codepoint]
    cases hc : cs.contains c <;> simp [hc] <;> split <;> simp
  · have hc : cs.contains c = true := by
      rw [contains_eq_decide_mem]
      simpa using hmem
    refine ⟨?_, fun hall => ?_, fun hnall => ?_⟩
    · by_cases hq : sPos = FontCachedCodepointSupportInfo.SUPPORTED_MAX_SZ
      · simp [FontCachedCodepointSupportInfo.has_codepoint, hsp, hnp,
          FontCachedCodepointSupportInfo.unknown_has_codepoint, hc, hq, hmem]
      · simp [FontCachedCodepointSupportInfo.has_codepoint, hsp, hnp,
          FontCachedCodepointSupportInfo.unknown_has_codepoint, hc, hq, hmem]
    · have hpos : sPos = FontCachedCodepointSupportInfo.SUPPORTED_MAX_SZ := by
        rw [← hlS]
        exact hsIff.mpr hall
      simp [FontCachedCodepointSupportInfo.has_codepoint, hsp, hnp,
        FontCachedCodepointSupportInfo.unknown_has_codepoint, hc, hpos, hmem]
    · have hpos : sPos ≠ FontCachedCodepointSupportInfo.SUPPORTED_MAX_SZ := by
        rw [← hlS]
        intro h
        exact hnall (hsIff.mp h)
      simp only [FontCachedCodepointSupportInfo.has_codepoint, hsp, hnp,
        FontCachedCodepointSupportInfo.unknown_has_codepoint, hc, if_true,
        if_pos hpos]
      have hgoal : c ∈ (info.supported.insertIdx sPos c).take
            FontCachedCodepointSupportInfo.SUPPORTED_MAX_SZ ∧
          ((info.supported.insertIdx sPos c).take
            FontCachedCodepointSupportInfo.SUPPORTED_MAX_SZ).length
            = FontCachedCodepointSupportInfo.SUPPORTED_MAX_SZ := by
        have hlt : sPos < FontCachedCodepointSupportInfo.SUPPORTED_MAX_SZ := by
          rw [← hlS] at hpos ⊢
          omega
        constructor
        · have hlen : sPos < ((info.supported.insertIdx sPos c).take
              FontCachedCodepointSupportInfo.SUPPORTED_MAX_SZ).length := by
            rw [List.length_take, List.length_insertIdx _ _ hsple]
            omega
          have heq : ((info.supported.insertIdx sPos c).take
              FontCachedCodepointSupportInfo.SUPPORTED_MAX_SZ)[sPos] = c := by
            rw [List.getElem_take]
            exact List.getElem_insertIdx_self _ _ _ hsple
          have hmm := List.getElem_mem hlen
          rwa [heq] at hmm
        · rw [List.length_take, List.length_insertIdx _ _ hsple, hlS]
          simp
      simpa using hgoal
  · have hc : cs.contains c = false := by
      rw [contains_eq_decide_mem]
      simpa using hmem
    refine ⟨?_, fun hall => ?_, fun hnall => ?_⟩
    · by_cases hq : nPos = FontCachedCodepointSupportInfo.NOT_SUPPORTED_MAX_SZ
      · simp [FontCachedCodepointSupportInfo.has_codepoint, hsp, hnp,
          FontCachedCodepointSupportInfo.unknown_has_codepoint, hc, hq, hmem]
      · simp [FontCachedCodepointSupportInfo.has_codepoint, hsp, hnp,
          FontCachedCodepointSupportInfo.unknown_has_codepoint, hc, hq, hmem]
    · have hpos : nPos = FontCachedCodepointSupportInfo.NOT_SUPPORTED_MAX_SZ := by
        rw [← hlN]
        exact hnIff.mpr hall
      simp [FontCachedCodepointSupportInfo.has_codepoint, hsp, hnp,
        FontCachedCodepointSupportInfo.unknown_has_codepoint, hc, hpos, hmem]
    · have hpos : nPos ≠ FontCachedCodepointSupportInfo.NOT_SUPPORTED_MAX_SZ := by
        rw [← hlN]
        intro h
        exact hnall (hnIff.mp h)
      simp only [FontCachedCodepointSupportInfo.has_codepoint, hsp, hnp,
        FontCachedCodepointSupportInfo.unknown_has_codepoint, hc,
        Bool.false_eq_true, if_false, if_pos hpos]
      have hgoal : c ∈ (info.not_supported.insertIdx nPos c).take
            FontCachedCodepointSupportInfo.NOT_SUPPORTED_MAX_SZ ∧
          ((info.not_supported.insertIdx nPos c).take
            FontCachedCodepointSupportInfo.NOT_SUPPORTED_MAX_SZ).length
            = FontCachedCodepointSupportInfo.NOT_SUPPORTED_MAX_SZ := by
        have hlt : nPos < FontCachedCodepointSupportInfo.NOT_SUPPORTED_MAX_SZ := by
          rw [← hlN] at hpos ⊢
          omega
        constructor
        · have hlen : nPos < ((info.not_supported.insertIdx nPos c).take
              FontCachedCodepointSupportInfo.NOT_SUPPORTED_MAX_SZ).length := by
            rw [List.length_take, List.length_insertIdx _ _ hnple]
            omega
          have heq : ((info.not_supported.insertIdx nPos c).take
              FontCachedCodepointSupportInfo.NOT_SUPPORTED_MAX_SZ)[nPos] = c := by
            rw [List.getElem_take]
            exact List.getElem_insertIdx_self _ _ _ hnple
          have hmm := List.getElem_mem hlen
          rwa [heq] at hmm
        · rw [List.length_take, List.length_insertIdx _ _ hnple, hlN]
          simp
      simpa using hgoal

set_option maxRecDepth 60000 in
/-- Witness for C4 at a concrete input: supported full with 1..512, all
below the queried codepoint 1000, which the font supports — the no-insert
case of the amended claim. -/
theorem claim_C4_witness :
    (FontCachedCodepointSupportInfo.has_codepoint
        ⟨List.range' 1 512, List.range' 2000 1024⟩ [1000] 1000).2
      = ⟨List.range' 1 512, List.range' 2000 1024⟩ := by
  have h := claim_C4_at_capacity_behavior
    ⟨List.range' 1 512, List.range' 2000 1024⟩ [1000] 1000
    (List.pairwise_lt_range' 1 512) (List.pairwise_lt_range' 2000 1024)
    (by simp [FontCachedCodepointSupportInfo.SUPPORTED_MAX_SZ])
    (by simp [FontCachedCodepointSupportInfo.NOT_SUPPORTED_MAX_SZ])
    (by decide) (by decide)
  exact (h.2.1 (by decide)).2.1 (by decide)

theorem countSupportedStep_foldl (cs : List Nat) (word : List Char) :
    ∀ (info : FontCachedCodepointSupportInfo) (count0 : Nat),
      FontCachedCodepointSupportInfo.Inv info →
      FontCachedCodepointSupportInfo.Consistent info cs →
      (word.foldl (FontSystem.countSupportedStep cs) (count0, info)).1
        = count0 + (word.filter (fun ch => cs.contains ch.toNat)).length := by
  induction word with
  | nil => intro info count0 _ _; simp
  | cons ch rest ih =>
    intro info count0 hInv hCon
    have hfst := FontCachedCodepointSupportInfo.has_codepoint_fst info cs
      ch.toNat hInv hCon
    have hInv' := FontCachedCodepointSupportInfo.has_codepoint_inv info cs
      ch.toNat hInv
    have hCon' := FontCachedCodepointSupportInfo.has_codepoint_consistent info cs
      ch.toNat hCon
    simp only [List.foldl_cons, FontSystem.countSupportedStep]
    rw [ih _ _ hInv' hCon', hfst]
    by_cases hm : ch.toNat ∈ cs
    · have hc : cs.contains ch.toNat = true := by
        rw [contains_eq_decide_mem]
        simpa using hm
      rw [hc]
      simp only [List.filter_cons, hc, eq_self_iff_true, if_true,
        List.length_cons]
      omega
    · have hc : cs.contains ch.toNat = false := by
        rw [contains_eq_decide_mem]
        simpa using hm
      rw [hc]
      simp only [List.filter_cons, hc, Bool.false_eq_true, if_false]
      omega

/-- Claim C10: `get_font_supported_codepoints_in_word` returns `none`
exactly when `get_font` fails for the id; otherwise it returns the number of
characters of the word whose codepoint is in the codepoint list of the
loaded font (under the cache invariant and consistency of the cached entry
for that id), and that count never exceeds the length of the word. -/
theorem claim_C10_word_count (load : Nat → Option Font) (fs : FontSystem)
    (id : Nat) (word : List Char)
    (hInv : FontCachedCodepointSupportInfo.Inv
      ((lookupAssoc fs.font_codepoint_support_info_cache id).getD
        FontCachedCodepointSupportInfo.new))
    (hCon : ∀ font, (FontSystem.get_font load fs id).1 = some font →
      FontCachedCodepointSupportInfo.Consistent
        ((lookupAssoc fs.font_codepoint_support_info_cache id).getD
          FontCachedCodepointSupportInfo.new)
        font.codepoints) :
    ((FontSystem.get_font_supported_codepoints_in_word load fs id word).1 = none
      ↔ (FontSystem.get_font load fs id).1 = none) ∧
    (∀ font, (FontSystem.get_font load fs id).1 = some font →
      (FontSystem.get_font_supported_codepoints_in_word load fs id word).1
        = some ((word.filter
            (fun ch => font.codepoints.contains ch.toNat)).length)) ∧
    ∀ n, (FontSystem.get_font_supported_codepoints_in_word load fs id word).1
        = some n → n ≤ word.length := by
  rcases h : lookupAssoc fs.font_cache id with _ | v
  · rcases hl : load id with _ | font
    · refine ⟨?_, ?_, ?_⟩
      · simp [FontSystem.get_font_supported_codepoints_in_word,
          FontSystem.get_font, h, hl]
      · intro font hfont
        simp [FontSystem.get_font, h, hl] at hfont
      · intro n hn
        simp [FontSystem.get_font_supported_codepoints_in_word,
          FontSystem.get_font, h, hl] at hn
    · have hfont : (FontSystem.get_font load fs id).1 = some font := by
        simp [FontSystem.get_font, h, hl]
      have hcnt := countSupportedStep_foldl font.codepoints word
        ((lookupAssoc fs.font_codepoint_support_info_cache id).getD
          FontCachedCodepointSupportInfo.new) 0 hInv (hCon font hfont)
      refine ⟨?_, ?_, ?_⟩
      · simp [FontSystem.get_font_supported_codepoints_in_word,
          FontSystem.get_font, h, hl]
      · intro font' hfont'
        rw [hfont] at hfont'
        obtain rfl : font = font' := Option.some.inj hfont'
        simp only [FontSystem.get_font_supported_codepoints_in_word,
          FontSystem.get_font, h, hl]
        rw [hcnt]
        simp
      · intro n hn
        simp only [FontSystem.get_font_supported_codepoints_in_word,
          FontSystem.get_font, h, hl] at hn
        rw [hcnt] at hn
        simp at hn
        subst hn
        exact Nat.le_trans (List.length_filter_le _ _) (Nat.le_refl _)
  · rcases hv : v with _ | font
    · refine ⟨?_, ?_, ?_⟩
      · simp [FontSystem.get_font_supported_codepoints_in_word,
          FontSystem.get_font, h, hv]
      · intro font hfont
        simp [FontSystem.get_font, h, hv] at hfont
      · intro n hn
        simp [FontSystem.get_font_supported_codepoints_in_word,
          FontSystem.get_font, h, hv] at hn
    · have hfont : (FontSystem.get_font load fs id).1 = some font := by
        simp [FontSystem.get_font, h, hv]
      have hcnt := countSupportedStep_foldl font.codepoints word
        ((lookupAssoc fs.font_codepoint_support_info_cache id).getD
          FontCachedCodepointSupportInfo.new) 0 hInv (hCon font hfont)
      refine ⟨?_, ?_, ?_⟩
      · simp [FontSystem.get_font_supported_codepoints_in_word,
          FontSystem.get_font, h, hv]
      · intro font' hfont'
        rw [hfont] at hfont'
        obtain rfl : font = font' := Option.some.inj hfont'
        simp only [FontSystem.get_font_supported_codepoints_in_word,
          FontSystem.get_font, h, hv]
        rw [hcnt]
        simp
      · intro n hn
        simp only [FontSystem.get_font_supported_codepoints_in_word,
          FontSystem.get_font, h, hv] at hn
        rw [hcnt] at hn
        simp at hn
        subst hn
        exact Nat.le_trans (List.length_filter_le _ _) (Nat.le_refl _)

/-- Witness for C10 at a concrete input: a font supporting only codepoint 65
counts one supported character in the two-character word AB. -/
theorem claim_C10_witness :
    (FontSystem.get_font_supported_codepoints_in_word
        (fun _ => some ⟨[65]⟩) ⟨[], [], [], []⟩ 0
        [Char.ofNat 65, Char.ofNat 66]).1 = some 1 := by
  have h := (claim_C10_word_count (fun _ => some ⟨[65]⟩) ⟨[], [], [], []⟩ 0
    [Char.ofNat 65, Char.ofNat 66] (by decide)
    (fun font hf => by
      simp [FontSystem.get_font, lookupAssoc] at hf
      cases hf
      decide)).2.1 ⟨[65]⟩ (by simp [FontSystem.get_font, lookupAssoc])
  rw [h]
  decide

/-- Claim C2: the code, not the claim, is at fault here.  With a fallback
rule registered, a missing offset that falls in the middle of a multi-byte
character inside the run — here offset 1 inside the two-byte character
U+00E9 with run bounds [0, 2) — makes the Rust code slice the string off a
character boundary, which panics; the model returns the panic marker
`none` instead of pushing the offset to the residual list. -/
theorem claim_C2_midchar_offset_panics :
    process_unicode_range_fallbacks true (fun _ => some 0)
      (fun _ => some ⟨[]⟩) (fun _ => ([], []))
      [] [Char.ofNat 233] 0 2 [1] = none := by
  decide

/-- Claim C9 (amended): with no fallback rules registered the call returns
`missing` unchanged and leaves the glyph list untouched; with an empty
`missing` list it returns an empty residual and the glyph list sorted by
start offset — which leaves the glyph list unchanged whenever it is already
sorted by start, but reorders an unsorted one when fallback rules exist. -/
theorem claim_C9_noop_paths :
    (∀ (findFb : Char → Option Nat) (getF : Nat → Option Font)
        (shapeFb : Nat → List Nat × List ShapeGlyph)
        (glyphs : List ShapeGlyph) (line : List Char) (startRun endRun : Nat)
        (missing : List Nat),
      process_unicode_range_fallbacks false findFb getF shapeFb glyphs line
        startRun endRun missing = some (glyphs, missing)) ∧
    (∀ (hasFb : Bool) (findFb : Char → Option Nat) (getF : Nat → Option Font)
        (shapeFb : Nat → List Nat × List ShapeGlyph)
        (glyphs : List ShapeGlyph) (line : List Char) (startRun endRun : Nat),
      process_unicode_range_fallbacks hasFb findFb getF shapeFb glyphs line
        startRun endRun []
        = some
          (if hasFb then glyphs.insertionSort ShapeGlyph.startLe else glyphs,
            [])) ∧
    ∀ (glyphs : List ShapeGlyph), glyphs.Sorted ShapeGlyph.startLe →
      glyphs.insertionSort ShapeGlyph.startLe = glyphs := by
  refine ⟨?_, ?_, ?_⟩
  · intro findFb getF shapeFb glyphs line startRun endRun missing
    simp [process_unicode_range_fallbacks]
  · intro hasFb findFb getF shapeFb glyphs line startRun endRun
    cases hasFb
    · simp [process_unicode_range_fallbacks]
    · simp [process_unicode_range_fallbacks, classifyMissing]
  · intro glyphs h
    exact h.insertionSort_eq

/-- Witness for C9 at a concrete input: an already-sorted glyph list is
unchanged by the final sort. -/
theorem claim_C9_witness :
    ([⟨1, 0⟩, ⟨2, 0⟩] : List ShapeGlyph).insertionSort ShapeGlyph.startLe
      = [⟨1, 0⟩, ⟨2, 0⟩] :=
  claim_C9_noop_paths.2.2 [⟨1, 0⟩, ⟨2, 0⟩] (by decide)

/-- Counterexample to C9 as stated: with a fallback rule registered and an
empty `missing` list, an unsorted glyph list is reordered by the final
`sort_by_key`, so the glyph sequence does not stay unchanged. -/
theorem claim_C9_counterexample :
    process_unicode_range_fallbacks true (fun _ => some 0)
        (fun _ => some ⟨[]⟩) (fun _ => ([], []))
        [⟨2, 0⟩, ⟨1, 0⟩] [Char.ofNat 65] 0 1 []
      = some ([⟨1, 0⟩, ⟨2, 0⟩], []) ∧
    ([⟨1, 0⟩, ⟨2, 0⟩] : List ShapeGlyph) ≠ [⟨2, 0⟩, ⟨1, 0⟩] := by
  exact ⟨by decide, by decide⟩

theorem replaceFirstAt_mem {gl gl' : List ShapeGlyph} {pos : Nat}
    {fg : ShapeGlyph} (h : replaceFirstAt gl pos fg = some gl') : fg ∈ gl' := by
  induction gl generalizing gl' with
  | nil => simp [replaceFirstAt] at h
  | cons g rest ih =>
    by_cases hg : g.start = pos
    · simp only [replaceFirstAt, if_pos hg, Option.some.injEq] at h
      subst h
      exact List.mem_cons_self _ _
    · simp only [replaceFirstAt, if_neg hg] at h
      cases hrep : replaceFirstAt rest pos fg <;> rw [hrep] at h
      · simp at h
      · simp at h
        subst h
        exact List.mem_cons_of_mem g (ih hrep)

theorem replaceFirstAt_preserves {gl gl' : List ShapeGlyph} {pos : Nat}
    {fg : ShapeGlyph} (h : replaceFirstAt gl pos fg = some gl')
    (hfg : fg.start = pos) {s : Nat} (hs : ∃ g ∈ gl, g.start = s) :
    ∃ g ∈ gl', g.start = s := by
  induction gl generalizing gl' with
  | nil => simp [replaceFirstAt] at h
  | cons g rest ih =>
    obtain ⟨g0, hg0m, hg0s⟩ := hs
    by_cases hg : g.start = pos
    · simp only [replaceFirstAt, if_pos hg, Option.some.injEq] at h
      subst h
      rcases List.mem_cons.mp hg0m with rfl | hg0m'
      · exact ⟨fg, List.mem_cons_self _ _, by rw [hfg, ← hg, hg0s]⟩
      · exact ⟨g0, List.mem_cons_of_mem _ hg0m', hg0s⟩
    · simp only [replaceFirstAt, if_neg hg] at h
      cases hrep : replaceFirstAt rest pos fg <;> rw [hrep] at h
      · simp at h
      · simp at h
        subst h
        rcases List.mem_cons.mp hg0m with rfl | hg0m'
        · exact ⟨g0, List.mem_cons_self _ _, hg0s⟩
        · obtain ⟨g1, hg1m, hg1s⟩ := ih hrep ⟨g0, hg0m', hg0s⟩
          exact ⟨g1, List.mem_cons_of_mem _ hg1m, hg1s⟩

theorem spliceGlyphAt_self (gl : List ShapeGlyph) (pos : Nat)
    (fg : ShapeGlyph) (hfg : fg.start = pos) :
    ∃ g ∈ spliceGlyphAt gl pos fg, g.start = pos := by
  unfold spliceGlyphAt
  cases h : replaceFirstAt gl pos fg with
  | none => exact ⟨fg, List.mem_append_right _ (List.mem_singleton_self _), hfg⟩
  | some gl' => exact ⟨fg, replaceFirstAt_mem h, hfg⟩

theorem spliceGlyphAt_preserves (gl : List ShapeGlyph) (pos : Nat)
    (fg : ShapeGlyph) (hfg : fg.start = pos) {s : Nat}
    (hs : ∃ g ∈ gl, g.start = s) :
    ∃ g ∈ spliceGlyphAt gl pos fg, g.start = s := by
  unfold spliceGlyphAt
  cases h : replaceFirstAt gl pos fg with
  | none =>
    obtain ⟨g0, hg0m, hg0s⟩ := hs
    exact ⟨g0, List.mem_append_left _ hg0m, hg0s⟩
  | some gl' => exact replaceFirstAt_preserves h hfg hs

theorem handlePos_foldl_spec (fbMissing : List Nat)
    (fbGlyphs : List ShapeGlyph) :
    ∀ (ps : List Nat) (gl : List ShapeGlyph) (res : List Nat),
      ∃ gl' extra,
        ps.foldl (handlePos fbMissing fbGlyphs) (gl, res) = (gl', res ++ extra) ∧
        extra.Sublist ps ∧
        (∀ s, (∃ g ∈ gl, g.start = s) → ∃ g ∈ gl', g.start = s) ∧
        ∀ pos ∈ ps, (pos ∉ fbMissing → ∃ g ∈ fbGlyphs, g.start = pos) →
          pos ∈ res ++ extra ∨ ∃ g ∈ gl', g.start = pos := by
  intro ps
  induction ps with
  | nil =>
    intro gl res
    exact ⟨gl, [], by simp, List.nil_sublist _, fun s h => h, by simp⟩
  | cons pos ps' ih =>
    intro gl res
    simp only [List.foldl_cons]
    by_cases hm : pos ∈ fbMissing
    · have hstep : handlePos fbMissing fbGlyphs (gl, res) pos
          = (gl, res ++ [pos]) := by
        simp [handlePos, hm]
      rw [hstep]
      obtain ⟨gl', extra', heq, hsub, hpres, hcov⟩ := ih gl (res ++ [pos])
      refine ⟨gl', pos :: extra', ?_, List.Sublist.cons₂ pos hsub, hpres, ?_⟩
      · rw [heq]
        simp [List.append_assoc]
      · intro p hp hcond
        rcases List.mem_cons.mp hp with rfl | hp'
        · left
          simp
        · rcases hcov p hp' hcond with hin | hg
          · left
            rcases List.mem_append.mp hin with h | h
            · rcases List.mem_append.mp h with h' | h'
              · exact List.mem_append.mpr (Or.inl h')
              · simp only [List.mem_singleton] at h'
                subst h'
                exact List.mem_append.mpr (Or.inr (List.mem_cons_self _ _))
            · exact List.mem_append.mpr
                (Or.inr (List.mem_cons_of_mem _ h))
          · right
            exact hg
    · cases hfind : fbGlyphs.find? (fun g => g.start == pos) with
      | some fg =>
        have hfg : fg.start = pos := by
          have := List.find?_some hfind
          simpa using this
        have hstep : handlePos fbMissing fbGlyphs (gl, res) pos
            = (spliceGlyphAt gl pos fg, res) := by
          simp [handlePos, hm, hfind]
        rw [hstep]
        obtain ⟨gl', extra', heq, hsub, hpres, hcov⟩ :=
          ih (spliceGlyphAt gl pos fg) res
        refine ⟨gl', extra', heq, List.Sublist.cons pos hsub, ?_, ?_⟩
        · intro s hs
          exact hpres s (spliceGlyphAt_preserves gl pos fg hfg hs)
        · intro p hp hcond
          rcases List.mem_cons.mp hp with rfl | hp'
          · right
            exact hpres p (spliceGlyphAt_self gl p fg hfg)
          · exact hcov p hp' hcond
      | none =>
        have hstep : handlePos fbMissing fbGlyphs (gl, res) pos = (gl, res) := by
          simp [handlePos, hm, hfind]
        rw [hstep]
        obtain ⟨gl', extra', heq, hsub, hpres, hcov⟩ := ih gl res
        refine ⟨gl', extra', heq, List.Sublist.cons pos hsub, hpres, ?_⟩
        intro p hp hcond
        rcases List.mem_cons.mp hp with rfl | hp'
        · exfalso
          obtain ⟨g, hgm, hgs⟩ := hcond hm
          have := List.find?_eq_none.mp hfind g hgm
          simp [hgs] at this
        · exact hcov p hp' hcond

theorem processGroup_spec (getF : Nat → Option Font)
    (shapeFb : Nat → List Nat × List ShapeGlyph)
    (grp : Nat × List Nat) (gl : List ShapeGlyph) (res : List Nat)
    (hsh : ∀ pos ∈ grp.2, pos ∉ (shapeFb grp.1).1 →
      ∃ g ∈ (shapeFb grp.1).2, g.start = pos) :
    ∃ gl' extra,
      processGroup getF shapeFb (gl, res) grp = (gl', res ++ extra) ∧
      extra.Sublist grp.2 ∧
      (∀ s, (∃ g ∈ gl, g.start = s) → ∃ g ∈ gl', g.start = s) ∧
      ∀ pos ∈ grp.2, pos ∈ res ++ extra ∨ ∃ g ∈ gl', g.start = pos := by
  cases hget : getF grp.1 with
  | none =>
    refine ⟨gl, grp.2, ?_, List.Sublist.refl _, fun s h => h,
      fun pos hp => Or.inl (List.mem_append.mpr (Or.inr hp))⟩
    simp [processGroup, hget]
  | some font =>
    obtain ⟨gl', extra, heq, hsub, hpres, hcov⟩ :=
      handlePos_foldl_spec (shapeFb grp.1).1 (shapeFb grp.1).2 grp.2 gl res
    refine ⟨gl', extra, ?_, hsub, hpres,
      fun pos hp => hcov pos hp (hsh pos hp)⟩
    simp only [processGroup, hget]
    exact heq

theorem processGroups_foldl_spec (getF : Nat → Option Font)
    (shapeFb : Nat → List Nat × List ShapeGlyph) :
    ∀ (groups : List (Nat × List Nat)) (gl : List ShapeGlyph)
      (res : List Nat),
      (∀ fid ps, (fid, ps) ∈ groups → ∀ pos ∈ ps, pos ∉ (shapeFb fid).1 →
        ∃ g ∈ (shapeFb fid).2, g.start = pos) →
      ∃ gl' extra,
        groups.foldl (processGroup getF shapeFb) (gl, res)
          = (gl', res ++ extra) ∧
        extra.Sublist (groups.flatMap Prod.snd) ∧
        (∀ s, (∃ g ∈ gl, g.start = s) → ∃ g ∈ gl', g.start = s) ∧
        ∀ pos ∈ groups.flatMap Prod.snd,
          pos ∈ res ++ extra ∨ ∃ g ∈ gl', g.start = pos := by
  intro groups
  induction groups with
  | nil =>
    intro gl res _
    exact ⟨gl, [], by simp, by simp, fun s h => h, by simp⟩
  | cons grp rest ih =>
    intro gl res hsh
    have hmem : (grp.1, grp.2) ∈ grp :: rest := by
      simp
    obtain ⟨gl₁, e₁, heq₁, hsub₁, hpres₁, hcov₁⟩ :=
      processGroup_spec getF shapeFb grp gl res
        (fun pos hp => hsh grp.1 grp.2 hmem pos hp)
    obtain ⟨gl', e₂, heq₂, hsub₂, hpres₂, hcov₂⟩ :=
      ih gl₁ (res ++ e₁)
        (fun fid ps hm => hsh fid ps (List.mem_cons_of_mem _ hm))
    refine ⟨gl', e₁ ++ e₂, ?_, ?_, ?_, ?_⟩
    · simp only [List.foldl_cons]
      rw [heq₁, heq₂, List.append_assoc]
    · simp only [List.flatMap_cons]
      exact hsub₁.append hsub₂
    · intro s hs
      exact hpres₂ s (hpres₁ s hs)
    · intro pos hp
      simp only [List.flatMap_cons, List.mem_append] at hp
      rcases hp with hp | hp
      · rcases hcov₁ pos hp with hin | hg
        · left
          rcases List.mem_append.mp hin with h | h
          · exact List.mem_append.mpr (Or.inl h)
          · exact List.mem_append.mpr
              (Or.inr (List.mem_append.mpr (Or.inl h)))
        · right
          exact hpres₂ _ hg
      · rcases hcov₂ pos hp with hin | hg
        · left
          rcases List.mem_append.mp hin with h | h
          · rcases List.mem_append.mp h with h' | h'
            · exact List.mem_append.mpr (Or.inl h')
            · exact List.mem_append.mpr
                (Or.inr (List.mem_append.mpr (Or.inl h')))
          · exact List.mem_append.mpr
              (Or.inr (List.mem_append.mpr (Or.inr h)))
        · right
          exact hg

theorem pushGroup_flatMap_perm (gs : List (Nat × List Nat)) (fid pos : Nat) :
    ((pushGroup gs fid pos).flatMap Prod.snd).Perm
      (gs.flatMap Prod.snd ++ [pos]) := by
  induction gs with
  | nil => simp [pushGroup]
  | cons hd rest ih =>
    obtain ⟨f, ps⟩ := hd
    by_cases hf : f = fid
    · simp only [pushGroup, if_pos hf, List.flatMap_cons]
      have e1 : (ps ++ [pos]) ++ rest.flatMap Prod.snd
          = ps ++ ([pos] ++ rest.flatMap Prod.snd) := by
        rw [List.append_assoc]
      have e2 : ps ++ (rest.flatMap Prod.snd ++ [pos])
          = (ps ++ rest.flatMap Prod.snd) ++ [pos] := by
        rw [List.append_assoc]
      rw [e1, ← e2]
      exact List.Perm.append_left ps List.perm_append_comm
    · simp only [pushGroup, if_neg hf, List.flatMap_cons]
      have e2 : ps ++ (rest.flatMap Prod.snd ++ [pos])
          = (ps ++ rest.flatMap Prod.snd) ++ [pos] := by
        rw [List.append_assoc]
      rw [← e2]
      exact List.Perm.append_left ps ih

theorem classifyMissing_perm (line : List Char) (s e : Nat)
    (findFb : Char → Option Nat) :
    ∀ (ms : List Nat) (gs : List (Nat × List Nat)) (ws : List Nat)
      (groups : List (Nat × List Nat)) (wo : List Nat),
      classifyMissing line s e findFb ms gs ws = some (groups, wo) →
      (groups.flatMap Prod.snd ++ wo).Perm
        ((gs.flatMap Prod.snd ++ ws) ++ ms) := by
  intro ms
  induction ms with
  | nil =>
    intro gs ws groups wo h
    simp only [classifyMissing, Option.some.injEq] at h
    injection h with h1 h2
    subst h1
    subst h2
    simp
  | cons pos rest ih =>
    intro gs ws groups wo h
    simp only [classifyMissing] at h
    split at h
    · exact absurd h (by simp)
    · have hp := ih gs (ws ++ [pos]) groups wo h
      simpa [List.append_assoc] using hp
    · rename_i c
      split at h
      · rename_i fid hf
        have hp := ih (pushGroup gs fid pos) ws groups wo h
        have push := pushGroup_flatMap_perm gs fid pos
        have h2 : ((((gs.flatMap Prod.snd ++ [pos]) ++ ws) ++ rest)).Perm
            ((gs.flatMap Prod.snd ++ ws) ++ (pos :: rest)) := by
          have hm : (ws ++ (pos :: rest)).Perm (pos :: (ws ++ rest)) :=
            List.perm_middle
          have e1 : ((gs.flatMap Prod.snd ++ [pos]) ++ ws) ++ rest
              = gs.flatMap Prod.snd ++ (pos :: (ws ++ rest)) := by
            simp [List.append_assoc]
          have e2 : gs.flatMap Prod.snd ++ (ws ++ (pos :: rest))
              = (gs.flatMap Prod.snd ++ ws) ++ (pos :: rest) := by
            rw [List.append_assoc]
          rw [e1, ← e2]
          exact List.Perm.append_left _ hm.symm
        exact hp.trans
          (((push.append_right ws).append_right rest).trans h2)
      · have hp := ih gs (ws ++ [pos]) groups wo h
        simpa [List.append_assoc] using hp

/-- Claim C1 (amended): provided the input missing offsets are distinct and
the fallback shaper yields, for every input offset absent from its own
missing set, some candidate glyph starting at that offset, every normally
completing call accounts for every input offset — it either appears in the
returned residual list or a glyph with its start offset is present in the
merged glyph sequence — and the residual list has no duplicates and contains
only input offsets.  (Without the condition on the shaper an offset can be
silently dropped, spliced nowhere and absent from the residual.) -/
theorem claim_C1_offsets_accounted
    (hasFb : Bool) (findFb : Char → Option Nat) (getF : Nat → Option Font)
    (shapeFb : Nat → List Nat × List ShapeGlyph) (glyphs : List ShapeGlyph)
    (line : List Char) (startRun endRun : Nat) (missing : List Nat)
    (gl' : List ShapeGlyph) (res' : List Nat)
    (hnd : missing.Nodup)
    (hshape : ∀ fid pos, pos ∈ missing → pos ∉ (shapeFb fid).1 →
      ∃ g ∈ (shapeFb fid).2, g.start = pos)
    (hres : process_unicode_range_fallbacks hasFb findFb getF shapeFb glyphs
      line startRun endRun missing = some (gl', res')) :
    (∀ pos ∈ missing, pos ∈ res' ∨ ∃ g ∈ gl', g.start = pos) ∧
    res'.Nodup ∧ ∀ pos ∈ res', pos ∈ missing := by
  cases hasFb with
  | false =>
    have hpair : (glyphs, missing) = (gl', res') := by
      simpa [process_unicode_range_fallbacks] using hres
    injection hpair with h1 h2
    subst h1
    subst h2
    exact ⟨fun pos hp => Or.inl hp, hnd, fun pos hp => hp⟩
  | true =>
    simp only [process_unicode_range_fallbacks, Bool.not_true,
      Bool.false_eq_true, if_false] at hres
    split at hres
    · exact absurd hres (by simp)
    · rename_i groups wo heq
      have hperm : ((groups.flatMap Prod.snd) ++ wo).Perm missing := by
        have h0 := classifyMissing_perm line startRun endRun findFb missing
          [] [] groups wo heq
        simpa using h0
      have hcon : ∀ fid ps, (fid, ps) ∈ groups → ∀ pos ∈ ps,
          pos ∉ (shapeFb fid).1 → ∃ g ∈ (shapeFb fid).2, g.start = pos := by
        intro fid ps hm pos hp hnm
        refine hshape fid pos ?_ hnm
        have hpos : pos ∈ groups.flatMap Prod.snd :=
          List.mem_flatMap.mpr ⟨(fid, ps), hm, hp⟩
        exact hperm.mem_iff.mp (List.mem_append.mpr (Or.inl hpos))
      obtain ⟨gl₁, extra, heq₂, hsub, hpres, hcov⟩ :=
        processGroups_foldl_spec getF shapeFb groups glyphs wo hcon
      rw [heq₂] at hres
      dsimp only at hres
      injection hres with hpair
      injection hpair with hgl hresid
      subst hgl
      subst hresid
      have hcomb : ((groups.flatMap Prod.snd) ++ wo).Nodup :=
        hperm.symm.nodup hnd
      obtain ⟨hflatnd, hwond, hdisj⟩ := List.nodup_append.mp hcomb
      have hwoext_nodup : (wo ++ extra).Nodup := by
        refine List.nodup_append.mpr
          ⟨hwond, List.Nodup.sublist hsub hflatnd, ?_⟩
        intro a ha ha'
        exact hdisj (hsub.subset ha') ha
      refine ⟨?_, ?_, ?_⟩
      · intro pos hp
        have hp' : pos ∈ (groups.flatMap Prod.snd) ++ wo :=
          hperm.mem_iff.mpr hp
        rcases List.mem_append.mp hp' with hflat | hwo
        · rcases hcov pos hflat with hin | ⟨g, hg, hgs⟩
          · left
            exact (List.mem_insertionSort _).mpr hin
          · right
            exact ⟨g, (List.mem_insertionSort _).mpr hg, hgs⟩
        · left
          exact (List.mem_insertionSort _).mpr
            (List.mem_append.mpr (Or.inl hwo))
      · exact (List.perm_insertionSort _ _).symm.nodup hwoext_nodup
      · intro pos hp
        have hp' : pos ∈ wo ++ extra := (List.mem_insertionSort _).mp hp
        rcases List.mem_append.mp hp' with hwo | hex
        · exact hperm.mem_iff.mp (List.mem_append.mpr (Or.inr hwo))
        · exact hperm.mem_iff.mp
            (List.mem_append.mpr (Or.inl (hsub.subset hex)))

/-- Counterexample to C1 as stated: a fallback shaper that reports offset 0
as renderable (it is absent from its missing set) but yields no glyph
starting at 0 makes the code drop the offset entirely — the call returns
empty glyphs and an empty residual, so the input offset 0 is neither
replaced in place nor in the residual list. -/
theorem claim_C1_counterexample :
    process_unicode_range_fallbacks true (fun _ => some 0)
        (fun _ => some ⟨[]⟩) (fun _ => ([], []))
        [] [Char.ofNat 65] 0 1 [0] = some ([], []) ∧
    ¬((0 : Nat) ∈ ([] : List Nat) ∨
      ∃ g ∈ ([] : List ShapeGlyph), g.start = 0) := by
  exact ⟨by decide, by decide⟩

/-- Witness for C1 at a concrete input: one missing offset, resolved by a
fallback font whose shaping yields a glyph starting at that offset. -/
theorem claim_C1_witness :
    (∀ pos ∈ [0],
      pos ∈ ([] : List Nat) ∨
        ∃ g ∈ ([⟨0, 99⟩] : List ShapeGlyph), g.start = pos) ∧
    ([] : List Nat).Nodup ∧ ∀ pos ∈ ([] : List Nat), pos ∈ [0] :=
  claim_C1_offsets_accounted true (fun _ => some 7) (fun _ => some ⟨[]⟩)
    (fun _ => ([], [⟨0, 99⟩])) [] [Char.ofNat 65] 0 1 [0] [⟨0, 99⟩] []
    (by decide)
    (fun fid pos hp hm => by
      simp at hp
      subst hp
      exact ⟨⟨0, 99⟩, by simp, rfl⟩)
    (by decide)
